import Mathlib

/-!
Verification of the skill-extraction / match-scoring core of the careerpilot
backend (`backend/app/main.py`).

The embedding models:
* `cosine_similarity`       (main.py:337-359)
* `extract_skills_from_text`(main.py:362-408) together with the regex catalog,
  Python `re.findall` scanning with `\b` word boundaries and `re.IGNORECASE`
* `analyze_job_match`       (main.py:411-459) with the inner `normalize_skill`
* the scoring loop of `match_jobs` (main.py:769-816), called `match_jobs_core`
  here because the HTTP / Supabase plumbing around it is out of scope: the
  resume embedding, the user skills and the job rows are taken as parameters.

Strings are modelled as `List Char` (ASCII fragment of Python's `str`),
floats as real numbers.
-/

/-- Python strings, modelled as lists of characters. -/
abbrev Str := List Char

/-- ASCII lower-casing of one character, as Python `str.lower` acts on
ASCII (and as the core `Char.toLower` is defined). -/
def lowerChar (c : Char) : Char :=
  if 65 ≤ c.toNat ∧ c.toNat ≤ 90 then Char.ofNat (c.toNat + 32) else c

/-- Lower-casing of a string; also models how `re.IGNORECASE` compares text. -/
def lowerStr (s : Str) : Str := s.map lowerChar

/-- Python regex `\w` (word character), ASCII fragment: letters, digits, `_`. -/
def isWordChar (c : Char) : Bool := c.isAlphanum || c == '_'

/-- Wordness of an optional character; the edges of the string count as
non-word, which is how `re` treats positions before the first and after the
last character. -/
def optWord (o : Option Char) : Bool := o.elim false isWordChar

/-- Python regex `\b`: a word boundary lies between two (optional) characters
exactly when one side is a word character and the other is not. -/
def wordBoundary (a b : Option Char) : Bool := optWord a != optWord b

/-! ## The skill catalog (main.py:369-391)

Each regex `\b(?:alt1|alt2|...)\b` is modelled as its ordered list of literal
alternatives.  `Node\.?js` / `Next\.?js` expand, in the regex engine's greedy
backtracking order, to the alternative with the dot first and without it
second. -/

/-- Programming-language pattern (main.py:371). -/
def pat1 : List Str :=
  ["Python".toList, "JavaScript".toList, "Java".toList, "C++".toList,
   "C#".toList, "Go".toList, "Rust".toList, "Swift".toList, "Kotlin".toList,
   "PHP".toList, "Ruby".toList, "Scala".toList, "TypeScript".toList]

/-- Frameworks-and-libraries pattern (main.py:373). -/
def pat2 : List Str :=
  ["React".toList, "Angular".toList, "Vue".toList, "Node.js".toList,
   "Nodejs".toList, "Express".toList, "Django".toList, "Flask".toList,
   "Spring".toList, "Laravel".toList, "Rails".toList, "Next.js".toList,
   "Nextjs".toList, "Nuxt".toList]

/-- Cloud-and-DevOps pattern (main.py:375). -/
def pat3 : List Str :=
  ["AWS".toList, "Azure".toList, "GCP".toList, "Docker".toList,
   "Kubernetes".toList, "Jenkins".toList, "Git".toList, "Linux".toList,
   "Windows".toList, "macOS".toList, "Terraform".toList, "Ansible".toList]

/-- Databases pattern (main.py:377). -/
def pat4 : List Str :=
  ["PostgreSQL".toList, "MySQL".toList, "MongoDB".toList, "Redis".toList,
   "Elasticsearch".toList, "SQLite".toList, "Oracle".toList,
   "Cassandra".toList, "DynamoDB".toList]

/-- AI/ML pattern (main.py:379). -/
def pat5 : List Str :=
  ["Machine Learning".toList, "AI".toList, "Data Science".toList,
   "Analytics".toList, "Statistics".toList, "TensorFlow".toList,
   "PyTorch".toList, "Scikit-learn".toList, "Pandas".toList, "NumPy".toList]

/-- Methodologies pattern (main.py:381). -/
def pat6 : List Str :=
  ["Agile".toList, "Scrum".toList, "DevOps".toList, "CI/CD".toList,
   "Microservices".toList, "REST".toList, "GraphQL".toList, "API".toList,
   "TDD".toList, "BDD".toList]

/-- Frontend pattern (main.py:383). -/
def pat7 : List Str :=
  ["HTML".toList, "CSS".toList, "SASS".toList, "LESS".toList,
   "Tailwind".toList, "Bootstrap".toList, "Webpack".toList, "Babel".toList,
   "Jest".toList, "Cypress".toList, "Selenium".toList]

/-- Tools-and-platforms pattern (main.py:385). -/
def pat8 : List Str :=
  ["GitHub".toList, "GitLab".toList, "Bitbucket".toList, "Jira".toList,
   "Confluence".toList, "Slack".toList, "Figma".toList, "Sketch".toList,
   "VS Code".toList, "IntelliJ".toList]

/-- Mobile / cross-platform pattern (main.py:387). -/
def pat9 : List Str :=
  ["React Native".toList, "Flutter".toList, "Xamarin".toList,
   "Cordova".toList, "Ionic".toList, "Electron".toList,
   "WebAssembly".toList]

/-- Infrastructure pattern (main.py:389-390), two raw regexes in the source
list, kept as two pattern groups. -/
def pat10a : List Str :=
  ["Apache".toList, "Nginx".toList, "Tomcat".toList, "IIS".toList,
   "Load Balancer".toList, "CDN".toList, "DNS".toList, "SSL".toList,
   "TLS".toList]

/-- The ordered catalog `skill_patterns` (main.py:369-391). -/
def skill_patterns : List (List Str) :=
  [pat1, pat2, pat3, pat4, pat5, pat6, pat7, pat8, pat9, pat10a]

/-- All alternatives of all patterns, flattened. -/
def allAlternatives : List Str := skill_patterns.flatten

/-! ## `re.findall` over one pattern `\b(?:alt1|...|altk)\b`, IGNORECASE -/

/-- Try the alternation at the start of `t` (the position just after `\b` has
already been checked by the scanner): the first alternative, in regex order,
that matches case-insensitively and is followed by a word boundary wins;
the result is the length of the match. -/
def tryAlts (alts : List Str) (t : Str) : Option Nat :=
  match alts with
  | [] => none
  | lit :: rest =>
    if lit.length ≤ t.length ∧ lowerStr (t.take lit.length) = lowerStr lit ∧
       wordBoundary ((t.take lit.length).getLast?) (t.get? lit.length) = true
    then some lit.length
    else tryAlts rest t

/-- The `re.findall` scan: walk left to right keeping the previous character
(`prev`, `none` at the start of the string); at a position with a word
boundary try the alternation; on a match emit the matched slice of the text
and resume after it, otherwise advance one character.
Each step consumes at least one character (`max n 1`: all catalog
alternatives are nonempty, so the `max` is never binding); the scan is
written with a step counter `fuel` so that it is structurally recursive —
`findall` supplies `fuel = text.length`, which the step bound makes
sufficient. -/
def findallAux (alts : List Str) (fuel : Nat) (prev : Option Char)
    (t : Str) : List Str :=
  match fuel with
  | 0 => []
  | fuel + 1 =>
    match t with
    | [] => []
    | c :: rest =>
      if wordBoundary prev (some c) = true then
        match tryAlts alts (c :: rest) with
        | some n =>
          let k := max n 1
          (c :: rest).take k ::
            findallAux alts fuel ((c :: rest).get? (k - 1))
              ((c :: rest).drop k)
        | none => findallAux alts fuel (some c) rest
      else findallAux alts fuel (some c) rest

/-- `re.findall(pattern, text, re.IGNORECASE)` for one catalog pattern. -/
def findall (alts : List Str) (text : Str) : List Str :=
  findallAux alts text.length none text

/-- The canonicalization applied to each match (main.py:397-403):
`node.js`/`nodejs` collapse to `Node.js`, `next.js`/`nextjs` to `Next.js`,
every other match is kept verbatim, in the casing found in the text. -/
def canonMatch (m : Str) : Str :=
  if lowerStr m = "node.js".toList ∨ lowerStr m = "nodejs".toList then
    "Node.js".toList
  else if lowerStr m = "next.js".toList ∨ lowerStr m = "nextjs".toList then
    "Next.js".toList
  else m

/-- All canonicalized matches of all patterns, in scan order, duplicates
kept. -/
def extractMatches (text : Str) : List Str :=
  (skill_patterns.map (fun p => findall p text)).flatten.map canonMatch

/-- `extract_skills_from_text` (main.py:362-408).  The Python function
accumulates matches into a `set` and returns `list(skills)`; the set is
modelled as first-occurrence deduplication (a deterministic stand-in for
CPython's unspecified set iteration order — no claim depends on the order). -/
def extract_skills_from_text (text : Str) : List Str :=
  (extractMatches text).dedup

/-! ## Whole-word occurrence predicates (for the spec-level properties) -/

/-- The character just before position `i`, `none` at the left edge. -/
def prevAt (t : Str) (i : Nat) : Option Char :=
  if i = 0 then none else t.get? (i - 1)

/-- `w` occurs in `t` at position `i`, case-insensitively, as a whole word:
the slice of `t` of length `|w|` starting at `i` lower-cases to `w`
lower-cased and both ends sit on word boundaries.  Modelled from the spec:
this is the spec's notion of "appears case-insensitively as a whole word". -/
def occursAtCI (t : Str) (i : Nat) (w : Str) : Bool :=
  let suf := t.drop i
  decide (w.length ≤ suf.length) &&
  decide (lowerStr (suf.take w.length) = lowerStr w) &&
  wordBoundary (prevAt t i) suf.head? &&
  wordBoundary ((suf.take w.length).getLast?) (suf.get? w.length)

/-- `w` occurs somewhere in `t`, case-insensitively, as a whole word. -/
def occursWordCI (w t : Str) : Bool :=
  (List.range t.length).any fun i => occursAtCI t i w

/-- Case-sensitive whole-word occurrence at a position: the slice is `w`
itself. -/
def occursAtExact (t : Str) (i : Nat) (w : Str) : Bool :=
  decide ((t.drop i).take w.length = w) && occursAtCI t i w

/-- `w` occurs somewhere in `t` verbatim, as a whole word. -/
def occursWordExact (w t : Str) : Bool :=
  (List.range t.length).any fun i => occursAtExact t i w

/-! ## `normalize_skill` (main.py:428-443) -/

/-- Python `str.strip()`: drop whitespace from both ends. -/
def pyStrip (l : Str) : Str :=
  ((l.dropWhile Char.isWhitespace).reverse.dropWhile Char.isWhitespace).reverse

/-- The `variations` synonym table (main.py:431-442), in source order. -/
def variations : List (Str × Str) :=
  [("node.js".toList, "nodejs".toList),
   ("nodejs".toList, "nodejs".toList),
   ("next.js".toList, "nextjs".toList),
   ("nextjs".toList, "nextjs".toList),
   ("c++".toList, "cpp".toList),
   ("c#".toList, "csharp".toList),
   ("machine learning".toList, "ml".toList),
   ("data science".toList, "ds".toList),
   ("artificial intelligence".toList, "ai".toList)]

/-- `normalize_skill` (main.py:428-443): lower-case, trim, then look the
result up in the synonym table, defaulting to itself. -/
def normalize_skill (skill : Str) : Str :=
  let skill_lower := pyStrip (lowerStr skill)
  (variations.lookup skill_lower).getD skill_lower

/-! ## `analyze_job_match` (main.py:411-459)

Python `set` / `dict` iteration orders are unspecified; they are modelled by
first-insertion order (a deterministic stand-in — no claim depends on which
order the set operations produce).  Python dicts keep the first-inserted
position of a key and let a later binding overwrite the value, which
`dictInsert` mirrors. -/

/-- Insert-or-overwrite into an association list, keeping key order. -/
def dictInsert (m : List (Str × Str)) (k v : Str) : List (Str × Str) :=
  if m.any (fun p => p.1 == k) then
    m.map (fun p => if p.1 == k then (p.1, v) else p)
  else m ++ [(k, v)]

/-- `{normalize_skill(skill): skill for skill in skills}` (main.py:445-446). -/
def buildNormalizedDict (skills : List Str) : List (Str × Str) :=
  skills.foldl (fun m s => dictInsert m (normalize_skill s) s) []

/-- `analyze_job_match` (main.py:411-459); returns
`(top_keywords, missing_skills)`. -/
def analyze_job_match (user_skills : List Str) (job_description : Str)
    (job_requirements : List Str) : List Str × List Str :=
  let job_skills :=
    (extract_skills_from_text job_description ++
      (job_requirements.map extract_skills_from_text).flatten).dedup
  let um := buildNormalizedDict user_skills
  let jm := buildNormalizedDict job_skills
  let matching :=
    (um.map Prod.fst).filter (fun k => (jm.map Prod.fst).contains k)
  let top_keywords := (matching.filterMap (fun k => um.lookup k)).take 10
  let missing :=
    (jm.map Prod.fst).filter (fun k => !(um.map Prod.fst).contains k)
  let missing_skills := (missing.filterMap (fun k => jm.lookup k)).take 10
  (top_keywords, missing_skills)

/-! ## `cosine_similarity` (main.py:337-359)

Floats are modelled as real numbers; `np.linalg.norm` is the Euclidean norm
`sqrt (Σ xᵢ²)` and `np.dot` the dot product. -/

/-- Sum of squares of a vector. -/
def sumSq (v : List ℝ) : ℝ := (v.map (fun x => x * x)).sum

/-- `np.linalg.norm v` for a 1-d vector. -/
noncomputable def normE (v : List ℝ) : ℝ := Real.sqrt (sumSq v)

/-- `np.dot a b`. -/
def dotP (a b : List ℝ) : ℝ := (List.zipWith (fun x y => x * y) a b).sum

/-- `cosine_similarity` (main.py:337-359): a `ValueError` on length mismatch
is modelled as `Except.error` carrying the source's message; the zero-norm
degenerate case returns `0.0`; otherwise the cosine is returned. -/
noncomputable def cosine_similarity (a b : List ℝ) : Except String ℝ :=
  if a.length ≠ b.length then .error "Vectors must have the same length"
  else if normE a = 0 ∨ normE b = 0 then .ok 0
  else .ok (dotP a b / (normE a * normE b))

/-! ## The scoring loop of `match_jobs` (main.py:769-816)

The HTTP handler's plumbing (Supabase query, resume parsing, embedding
provider) supplies three values to the loop: the resume embedding, the user
skills and the job rows; `match_jobs_core` takes them as parameters.  A job
row's `raw` dict either holds an embedding or does not (`raw` not a dict or
key absent), modelled as an `Option`. -/

/-- A job row as read by the loop. -/
structure JobRecord where
  id : Str
  title : Str
  company : Str
  raw_embedding : Option (List ℝ)
  description : Str
  requirements : List Str

/-- One scored match (the `JobMatch` Pydantic model, main.py:97-104). -/
structure JobMatch where
  job_id : Str
  title : Str
  company : Str
  score : ℝ
  top_keywords : List Str
  missing_skills : List Str

/-- The response of the loop (`JobMatchResponse`, main.py:106-109).  The
source field `matches` is a reserved word in Lean; it is called `ranked`
here, after the spec's name for it. -/
structure JobMatchResponse where
  ranked : List JobMatch
  total_jobs_searched : Nat
  user_skills : List Str

/-- Python `round(x, 3)` modelled as rounding to the nearest multiple of
1/1000 (the tie-breaking convention is immaterial to every claim). -/
noncomputable def round3 (x : ℝ) : ℝ := (round (x * 1000) : ℤ) / 1000

/-- The body of the `for job in response.data` loop (main.py:769-805): skip a
job without an embedding (`continue`), skip a job whose similarity raises
`ValueError` (`except ValueError: ... continue`), otherwise build a
`JobMatch` from the rounded score and the skill analysis. -/
noncomputable def scoreJob (resumeEmb : List ℝ) (userSkills : List Str)
    (job : JobRecord) : Option JobMatch :=
  match job.raw_embedding with
  | none => none
  | some jobEmb =>
    match cosine_similarity resumeEmb jobEmb with
    | .error _ => none
    | .ok s =>
      let analysis :=
        analyze_job_match userSkills job.description job.requirements
      some { job_id := job.id, title := job.title, company := job.company,
             score := round3 s, top_keywords := analysis.1,
             missing_skills := analysis.2 }

/-- Stable insertion into a descending-by-score list: the inserted element
precedes every later element whose score is not larger. -/
noncomputable def insertDesc (x : JobMatch) : List JobMatch → List JobMatch
  | [] => [x]
  | y :: ys =>
    if y.score > x.score then y :: insertDesc x ys else x :: y :: ys

/-- `job_matches.sort(key=lambda x: x.score, reverse=True)` (main.py:807):
a stable descending sort by score. -/
noncomputable def sortByScoreDesc : List JobMatch → List JobMatch
  | [] => []
  | x :: xs => insertDesc x (sortByScoreDesc xs)

/-- Python list slicing `l[:n]` for an `int` bound `n`: a nonnegative `n`
takes the first `n` elements; a negative `n` drops the last `|n|`. -/
def pySliceTo {α : Type} (l : List α) (n : ℤ) : List α :=
  if 0 ≤ n then l.take n.toNat else l.take ((l.length : ℤ) + n).toNat

/-- The scoring-and-ranking core of `match_jobs` (main.py:769-816): score the
jobs, sort descending, truncate with `job_matches[:request.top_n]`, report
`len(job_matches)` as `total_jobs_searched`. -/
noncomputable def match_jobs_core (resumeEmb : List ℝ) (userSkills : List Str)
    (jobs : List JobRecord) (top_n : ℤ) : JobMatchResponse :=
  let job_matches := jobs.filterMap (scoreJob resumeEmb userSkills)
  let sorted := sortByScoreDesc job_matches
  { ranked := pySliceTo sorted top_n,
    total_jobs_searched := job_matches.length,
    user_skills := userSkills }

/-! ## Auxiliary notions used by the statements and proofs -/

/-- The character that precedes a position reached after scanning past
`pre`, starting from previous character `prev`: the last character of `pre`
when `pre` is nonempty, else `prev`. -/
def lastOf (prev : Option Char) (pre : Str) : Option Char :=
  pre.getLast?.or prev

/-- `l` has, somewhere inside it, a non-word character immediately followed
by a word character.  A catalog alternative without such a pair can never
"swallow" a whole-word occurrence that starts to its right. -/
def hasNWW (l : Str) : Bool :=
  (l.zip l.tail).any fun p => !isWordChar p.1 && isWordChar p.2

/-- Modelled from the spec: the catalog's canonical display forms (its
"preferred spellings") — each alternative as written in the catalog, with the
variant spellings collapsed by `canonMatch` to their canonical name. -/
def canonicalDisplayForms : List Str := allAlternatives.map canonMatch

/-! ## Character-level lemmas -/

theorem char_toNat_ofNat_valid (n : Nat) (h : n < 55296) :
    (Char.ofNat n).toNat = n := by
  rw [Char.ofNat, dif_pos (Or.inl (by exact_mod_cast h))]
  rfl

theorem lowerChar_toNat (c : Char) :
    (lowerChar c).toNat =
      if 65 ≤ c.toNat ∧ c.toNat ≤ 90 then c.toNat + 32 else c.toNat := by
  unfold lowerChar
  split
  · next h => exact char_toNat_ofNat_valid _ (by omega)
  · rfl

theorem lowerChar_eq_self (c : Char) (h : ¬(65 ≤ c.toNat ∧ c.toNat ≤ 90)) :
    lowerChar c = c := by
  unfold lowerChar
  rw [if_neg h]

theorem lowerChar_idem (c : Char) : lowerChar (lowerChar c) = lowerChar c := by
  by_cases h : 65 ≤ c.toNat ∧ c.toNat ≤ 90
  · have h1 : (lowerChar c).toNat = c.toNat + 32 := by
      rw [lowerChar_toNat, if_pos h]
    exact lowerChar_eq_self _ (by omega)
  · rw [lowerChar_eq_self c h, lowerChar_eq_self c h]

theorem isWordChar_of_lower_letter (d : Char)
    (h1 : 97 ≤ d.toNat) (h2 : d.toNat ≤ 122) : isWordChar d = true := by
  unfold isWordChar Char.isAlphanum Char.isAlpha Char.isLower
  have g1 : d.val ≥ 97 := h1
  have g2 : d.val ≤ 122 := h2
  simp [g1, g2]

theorem isWordChar_of_upper_letter (d : Char)
    (h1 : 65 ≤ d.toNat) (h2 : d.toNat ≤ 90) : isWordChar d = true := by
  unfold isWordChar Char.isAlphanum Char.isAlpha Char.isUpper
  have g1 : d.val ≥ 65 := h1
  have g2 : d.val ≤ 90 := h2
  simp [g1, g2]

theorem isWordChar_lowerChar (c : Char) :
    isWordChar (lowerChar c) = isWordChar c := by
  by_cases h : 65 ≤ c.toNat ∧ c.toNat ≤ 90
  · have h1 : (lowerChar c).toNat = c.toNat + 32 := by
      rw [lowerChar_toNat, if_pos h]
    rw [isWordChar_of_upper_letter c h.1 h.2,
      isWordChar_of_lower_letter _ (by omega) (by omega)]
  · rw [lowerChar_eq_self c h]

theorem isWhitespace_of_ge (d : Char) (h : 65 ≤ d.toNat) :
    d.isWhitespace = false := by
  unfold Char.isWhitespace
  simp only [Bool.or_eq_false_iff, decide_eq_false_iff_not]
  refine ⟨⟨⟨?_, ?_⟩, ?_⟩, ?_⟩ <;>
    · intro hEq
      rw [hEq] at h
      exact absurd h (by decide)

theorem isWhitespace_lowerChar (c : Char) :
    (lowerChar c).isWhitespace = c.isWhitespace := by
  by_cases h : 65 ≤ c.toNat ∧ c.toNat ≤ 90
  · have h1 : (lowerChar c).toNat = c.toNat + 32 := by
      rw [lowerChar_toNat, if_pos h]
    rw [isWhitespace_of_ge c h.1, isWhitespace_of_ge _ (by omega)]
  · rw [lowerChar_eq_self c h]

/-! ## Lemmas about lower-casing and stripping strings -/

theorem dropWhile_idem (p : Char → Bool) (l : Str) :
    (l.dropWhile p).dropWhile p = l.dropWhile p := by
  cases h : l.dropWhile p with
  | nil => rfl
  | cons a as =>
    have ha : p a = false := by
      have := List.head?_dropWhile_not p l
      rw [h] at this
      simpa using this
    simp [List.dropWhile_cons, ha]

theorem lowerStr_idem (s : Str) : lowerStr (lowerStr s) = lowerStr s := by
  simp only [lowerStr, List.map_map]
  apply List.map_congr_left
  intro c _
  exact lowerChar_idem c

theorem pyStrip_lowerStr (s : Str) :
    pyStrip (lowerStr s) = lowerStr (pyStrip s) := by
  have hws : Char.isWhitespace ∘ lowerChar = Char.isWhitespace :=
    funext isWhitespace_lowerChar
  simp only [pyStrip, lowerStr, List.dropWhile_map, hws, ← List.map_reverse]

theorem getLast?_suffix_ne_nil {l t : Str} (h : l <:+ t) (hne : l ≠ []) :
    l.getLast? = t.getLast? := by
  obtain ⟨pre, rfl⟩ := h
  rw [List.getLast?_append]
  cases hl : l.getLast? with
  | none => exact absurd (List.getLast?_eq_none_iff.mp hl) hne
  | some a => rfl

theorem pyStrip_idem (l : Str) : pyStrip (pyStrip l) = pyStrip l := by
  set ws := Char.isWhitespace with hws
  set a := l.dropWhile ws with ha
  set b := a.reverse.dropWhile ws with hb
  have hpy : pyStrip l = b.reverse := rfl
  cases hbn : b with
  | nil => rw [hpy, hbn]; rfl
  | cons x xs =>
    have hb_ne : b ≠ [] := by rw [hbn]; simp
    have hlast : b.getLast? = a.reverse.getLast? :=
      getLast?_suffix_ne_nil (hb ▸ List.dropWhile_suffix ws) hb_ne
    have hhead : b.reverse.head? = a.head? := by
      rw [List.head?_reverse, hlast, List.getLast?_reverse]
    have hstep1 : b.reverse.dropWhile ws = b.reverse := by
      cases hbr : b.reverse with
      | nil => rfl
      | cons y ys =>
        have hy : a.head? = some y := by rw [← hhead, hbr]; rfl
        have hpy2 : ws y = false := by
          have := List.head?_dropWhile_not ws l
          rw [← ha] at this
          rw [hy] at this
          simpa using this
        simp [List.dropWhile_cons, hpy2]
    rw [hpy]
    show ((b.reverse.dropWhile ws).reverse.dropWhile ws).reverse = b.reverse
    rw [hstep1, List.reverse_reverse, hb, dropWhile_idem]

/-! ## Claims about `cosine_similarity` -/

/-- C1: `computeSimilarity` fails with the dimension-mismatch error exactly
when its two input vectors have different lengths, and never raises that
error when the lengths are equal. -/
theorem cosine_error_iff (a b : List ℝ) :
    (∃ msg, cosine_similarity a b = .error msg) ↔ a.length ≠ b.length := by
  unfold cosine_similarity
  by_cases h : a.length ≠ b.length
  · simp [h]
  · rw [if_neg h]
    constructor
    · rintro ⟨msg, hmsg⟩
      split at hmsg <;> simp_all
    · intro hc
      exact absurd hc h

/-- C6: when either input vector of `computeSimilarity` has Euclidean norm
exactly zero (and the lengths agree), the result is exactly `0.0` — no
division by zero, no error. -/
theorem cosine_zero_norm (a b : List ℝ) (hlen : a.length = b.length)
    (h : normE a = 0 ∨ normE b = 0) : cosine_similarity a b = .ok 0 := by
  unfold cosine_similarity
  rw [if_neg (not_not_intro hlen), if_pos h]

/-- Witness for C6 at the spec's own example:
`computeSimilarity([0,0,0], [1,2,3]) == 0.0`. -/
theorem cosine_zero_norm_witness :
    cosine_similarity [0, 0, 0] [1, 2, 3] = .ok 0 := by
  have hz : normE [(0 : ℝ), 0, 0] = 0 := by
    have h0 : sumSq [(0 : ℝ), 0, 0] = 0 := by norm_num [sumSq]
    rw [normE, h0, Real.sqrt_zero]
  exact cosine_zero_norm _ _ (by norm_num) (Or.inl hz)

/-! ## Claims about `analyze_job_match` and `normalize_skill` -/

/-- C9: both lists returned by `analyzeMatch` are truncated to at most 10
entries, a plain cap on the order the set operations produced. -/
theorem analyze_caps_at_ten (user_skills : List Str) (jd : Str)
    (jr : List Str) :
    (analyze_job_match user_skills jd jr).1.length ≤ 10 ∧
    (analyze_job_match user_skills jd jr).2.length ≤ 10 := by
  unfold analyze_job_match
  constructor <;> simp [List.length_take]

/-- C10: `normalize_skill` is idempotent — every synonym-table value and
every lowercased-trimmed fallback is itself a fixed point. -/
theorem normalize_skill_idem (s : Str) :
    normalize_skill (normalize_skill s) = normalize_skill s := by
  have hLT : ∀ x : Str,
      pyStrip (lowerStr (pyStrip (lowerStr x))) = pyStrip (lowerStr x) := by
    intro x
    rw [pyStrip_lowerStr, pyStrip_idem, ← pyStrip_lowerStr, lowerStr_idem]
  unfold normalize_skill
  cases hlk : variations.lookup (pyStrip (lowerStr s)) with
  | none =>
    simp only [hlk, Option.getD_none]
    rw [hLT s, hlk]
    rfl
  | some v =>
    simp only [hlk, Option.getD_some]
    have hmem : (pyStrip (lowerStr s), v) ∈ variations := by
      obtain ⟨l₁, l₂, heq, -⟩ := List.lookup_eq_some_iff.mp hlk
      rw [heq]
      exact List.mem_append_right _ (List.mem_cons_self _ _)
    have hval : ∀ p ∈ variations, normalize_skill p.2 = p.2 := by decide
    have := hval _ hmem
    unfold normalize_skill at this
    exact this

/-! ## Claims about the ranking pipeline `match_jobs_core` -/

theorem length_insertDesc (x : JobMatch) (l : List JobMatch) :
    (insertDesc x l).length = l.length + 1 := by
  induction l with
  | nil => rfl
  | cons y ys ih =>
    unfold insertDesc
    split <;> simp [ih]

theorem length_sortByScoreDesc (l : List JobMatch) :
    (sortByScoreDesc l).length = l.length := by
  induction l with
  | nil => rfl
  | cons x xs ih => simp [sortByScoreDesc, length_insertDesc, ih]

theorem length_pySliceTo {α : Type} (l : List α) (n : ℤ) :
    (pySliceTo l n).length ≤ l.length := by
  unfold pySliceTo
  split <;> simp [List.length_take]

theorem skip_scoreJob_none (e : List ℝ) (us : List Str)
    (l₁ l₂ : List JobRecord) (job : JobRecord) (n : ℤ)
    (h : scoreJob e us job = none) :
    match_jobs_core e us (l₁ ++ job :: l₂) n =
      match_jobs_core e us (l₁ ++ l₂) n := by
  unfold match_jobs_core
  simp only [List.filterMap_append, List.filterMap_cons, h]

/-- C8: a job without a usable embedding is filtered out before scoring:
it contributes to neither `ranked` nor `totalScored`, and the pipeline
returns normally. -/
theorem rank_excludes_no_embedding (e : List ℝ) (us : List Str)
    (l₁ l₂ : List JobRecord) (job : JobRecord) (n : ℤ)
    (h : job.raw_embedding = none) :
    scoreJob e us job = none ∧
    match_jobs_core e us (l₁ ++ job :: l₂) n =
      match_jobs_core e us (l₁ ++ l₂) n := by
  have hs : scoreJob e us job = none := by
    unfold scoreJob
    rw [h]
  exact ⟨hs, skip_scoreJob_none e us l₁ l₂ job n hs⟩

/-- Witness for C8 at a concrete embeddingless job. -/
theorem rank_excludes_no_embedding_witness :
    scoreJob [1] []
      ⟨"j0".toList, "t".toList, "c".toList, none, [], []⟩ = none ∧
    match_jobs_core [1] []
      ([] ++ ⟨"j0".toList, "t".toList, "c".toList, none, [], []⟩ :: []) 5 =
      match_jobs_core [1] [] ([] ++ []) 5 :=
  rank_excludes_no_embedding [1] [] [] []
    ⟨"j0".toList, "t".toList, "c".toList, none, [], []⟩ 5 rfl

/-- C3 (amended): the `DimensionMismatch` raised by `computeSimilarity`
inside the ranking loop is caught, not propagated: the mismatched job is
skipped — it contributes to neither `ranked` nor `totalScored` — and the
pipeline returns normally. -/
theorem rank_catches_mismatch (e : List ℝ) (us : List Str)
    (l₁ l₂ : List JobRecord) (job : JobRecord) (n : ℤ) (v : List ℝ)
    (hv : job.raw_embedding = some v) (hlen : v.length ≠ e.length) :
    scoreJob e us job = none ∧
    match_jobs_core e us (l₁ ++ job :: l₂) n =
      match_jobs_core e us (l₁ ++ l₂) n := by
  have hcos : cosine_similarity e v =
      .error "Vectors must have the same length" := by
    unfold cosine_similarity
    rw [if_pos (fun h => hlen h.symm)]
  have hs : scoreJob e us job = none := by
    unfold scoreJob
    rw [hv]
    simp only [hcos]
  exact ⟨hs, skip_scoreJob_none e us l₁ l₂ job n hs⟩

/-- Witness for the amended C3 at a concrete 2- vs 3-dimensional pair. -/
theorem rank_catches_mismatch_witness :
    scoreJob [1, 2] []
      ⟨"j1".toList, "t".toList, "c".toList, some [1, 2, 3], [], []⟩ = none ∧
    match_jobs_core [1, 2] []
      ([] ++ ⟨"j1".toList, "t".toList, "c".toList, some [1, 2, 3], [], []⟩
        :: []) 5 =
      match_jobs_core [1, 2] [] ([] ++ []) 5 :=
  rank_catches_mismatch [1, 2] [] [] []
    ⟨"j1".toList, "t".toList, "c".toList, some [1, 2, 3], [], []⟩ 5 [1, 2, 3]
    rfl (by norm_num)

/-- Counterexample to C3 as stated: with a resume embedding of length 2 and
a single job whose stored embedding has length 3, `computeSimilarity` does
raise the dimension-mismatch error, yet the pipeline returns a normal,
error-free response (the job silently skipped) — the error never reaches
the caller. -/
theorem mismatch_not_propagated :
    cosine_similarity [1, 2] [1, 2, 3] =
      .error "Vectors must have the same length" ∧
    match_jobs_core [1, 2] []
      [⟨"j1".toList, "t".toList, "c".toList, some [1, 2, 3], [], []⟩] 5 =
      ⟨[], 0, []⟩ := by
  have hcos : cosine_similarity [(1 : ℝ), 2] [1, 2, 3] =
      .error "Vectors must have the same length" := by
    unfold cosine_similarity
    rw [if_pos (by norm_num)]
  refine ⟨hcos, ?_⟩
  unfold match_jobs_core
  simp [scoreJob, hcos, sortByScoreDesc, pySliceTo]

/-- C7 (amended): for every nonnegative `topN` the pipeline returns at most
`topN` ranked entries, and for every `topN` (of any sign) `totalScored` is
at least the number of ranked entries.  (For negative `topN` Python's slice
`job_matches[:top_n]` drops `|topN|` entries from the end, so the ranked
list can then exceed `topN`.) -/
theorem rank_top_n_bound (e : List ℝ) (us : List Str)
    (jobs : List JobRecord) (n : ℤ) :
    (0 ≤ n → ((match_jobs_core e us jobs n).ranked.length : ℤ) ≤ n) ∧
    (match_jobs_core e us jobs n).ranked.length ≤
      (match_jobs_core e us jobs n).total_jobs_searched := by
  unfold match_jobs_core
  constructor
  · intro hn
    simp only [pySliceTo, if_pos hn]
    calc ((List.take n.toNat _).length : ℤ)
        ≤ (n.toNat : ℤ) := by
          exact_mod_cast List.length_take_le n.toNat _
      _ = n := Int.toNat_of_nonneg hn
  · calc (pySliceTo (sortByScoreDesc _) n).length
        ≤ (sortByScoreDesc _).length := length_pySliceTo _ n
      _ = _ := length_sortByScoreDesc _

/-- Witness for the amended C7 at a concrete call. -/
theorem rank_top_n_bound_witness :
    ((match_jobs_core [1] [] [] 3).ranked.length : ℤ) ≤ 3 ∧
    (match_jobs_core [1] [] [] 3).ranked.length ≤
      (match_jobs_core [1] [] [] 3).total_jobs_searched :=
  ⟨(rank_top_n_bound [1] [] [] 3).1 (by norm_num),
   (rank_top_n_bound [1] [] [] 3).2⟩

/-- Counterexample to C7 as stated: `top_n` is a plain Python `int`, so the
caller can pass `-1`; with two scorable jobs the slice `job_matches[:-1]`
returns one entry, and `1 ≤ -1` fails — the ranked list is not "at most
topN entries" for a negative `topN`. -/
theorem top_n_bound_fails_for_negative :
    ¬ (((match_jobs_core [1] []
          [⟨"j1".toList, "t".toList, "c".toList, some [0], [], []⟩,
           ⟨"j2".toList, "t".toList, "c".toList, some [0], [], []⟩]
          (-1)).ranked.length : ℤ) ≤ -1) := by
  have hz : normE [(0 : ℝ)] = 0 := by
    have h0 : sumSq [(0 : ℝ)] = 0 := by norm_num [sumSq]
    rw [normE, h0, Real.sqrt_zero]
  have hcos : cosine_similarity [(1 : ℝ)] [0] = .ok 0 := by
    unfold cosine_similarity
    rw [if_neg (by norm_num), if_pos (Or.inr hz)]
  have hscore : ∀ idt : Str, scoreJob [1] []
      ⟨idt, "t".toList, "c".toList, some [0], [], []⟩ =
      some ⟨idt, "t".toList, "c".toList, 0, [], []⟩ := by
    intro idt
    unfold scoreJob
    simp only [hcos]
    have hana : analyze_job_match [] [] [] = ([], []) := rfl
    have hr3 : round3 0 = 0 := by
      unfold round3
      norm_num
    simp [hana, hr3]
  unfold match_jobs_core
  simp only [List.filterMap_cons, hscore, List.filterMap_nil]
  have hsort : sortByScoreDesc
      [⟨"j1".toList, "t".toList, "c".toList, 0, [], []⟩,
       ⟨"j2".toList, "t".toList, "c".toList, 0, [], []⟩] =
      [⟨"j1".toList, "t".toList, "c".toList, 0, [], []⟩,
       ⟨"j2".toList, "t".toList, "c".toList, 0, [], []⟩] := by
    unfold sortByScoreDesc sortByScoreDesc sortByScoreDesc insertDesc insertDesc
    norm_num
  rw [hsort]
  unfold pySliceTo
  norm_num

/-! ## Soundness and completeness of the `re.findall` model -/

theorem lastOf_nil (prev : Option Char) : lastOf prev [] = prev := rfl

theorem lastOf_cons (prev : Option Char) (c : Char) (pre : Str) :
    lastOf prev (c :: pre) = lastOf (some c) pre := by
  cases pre with
  | nil => rfl
  | cons d ds =>
    show (c :: d :: ds).getLast?.or prev = (d :: ds).getLast?.or (some c)
    rw [List.getLast?_cons_cons]
    cases hl : (d :: ds).getLast? with
    | none => exact absurd (List.getLast?_eq_none_iff.mp hl) (by simp)
    | some x => rfl

theorem lastOf_append (prev : Option Char) (a b : Str) :
    lastOf prev (a ++ b) = lastOf (lastOf prev a) b := by
  simp [lastOf, List.getLast?_append, Option.or_assoc]

theorem head?_of_take_cons (n : Nat) (c : Char) (rest : Str) (hn : 1 ≤ n) :
    ((c :: rest).take n).head? = some c := by
  cases n with
  | zero => omega
  | succ m => rfl

theorem getLast?_take_eq (t : Str) (n : Nat) (h1 : 1 ≤ n)
    (h2 : n ≤ t.length) : (t.take n).getLast? = t.get? (n - 1) := by
  rw [List.getLast?_eq_getElem?, List.get?_eq_getElem?, List.length_take]
  have hmin : min n t.length = n := by omega
  rw [hmin, List.getElem?_take_of_lt (by omega)]

theorem head?_drop_eq (t : Str) (n : Nat) : (t.drop n).head? = t.get? n := by
  rw [List.head?_eq_getElem?, List.getElem?_drop, List.get?_eq_getElem?,
    Nat.add_zero]

theorem tryAlts_spec {alts : List Str} {t : Str} {n : Nat}
    (h : tryAlts alts t = some n) :
    ∃ lit, lit ∈ alts ∧ n = lit.length ∧ lit.length ≤ t.length ∧
      lowerStr (t.take lit.length) = lowerStr lit ∧
      wordBoundary ((t.take lit.length).getLast?) (t.get? lit.length) =
        true := by
  induction alts with
  | nil => simp [tryAlts] at h
  | cons lit rest ih =>
    unfold tryAlts at h
    split at h
    · next hc =>
      cases h
      exact ⟨lit, List.mem_cons_self _ _, rfl, hc.1, hc.2.1, hc.2.2⟩
    · obtain ⟨l, hl, h1, h2, h3, h4⟩ := ih h
      exact ⟨l, List.mem_cons_of_mem _ hl, h1, h2, h3, h4⟩

theorem findallAux_sound {alts : List Str} (halts : ∀ l ∈ alts, l ≠ [])
    {fuel : Nat} {prev : Option Char} {t m : Str}
    (hm : m ∈ findallAux alts fuel prev t) :
    ∃ pre post lit, t = pre ++ (m ++ post) ∧ lit ∈ alts ∧ m ≠ [] ∧
      lowerStr m = lowerStr lit ∧
      wordBoundary (lastOf prev pre) m.head? = true ∧
      wordBoundary m.getLast? post.head? = true := by
  induction fuel generalizing prev t with
  | zero => simp [findallAux] at hm
  | succ fuel ih =>
    cases t with
    | nil => simp [findallAux] at hm
    | cons c rest =>
      rw [findallAux] at hm
      by_cases hb : wordBoundary prev (some c) = true
      · rw [if_pos hb] at hm
        cases htry : tryAlts alts (c :: rest) with
        | none =>
          rw [htry] at hm
          obtain ⟨pre, post, lit, heq, hlit, hne, hlow, hleft, hright⟩ :=
            ih hm
          exact ⟨c :: pre, post, lit, by rw [heq, List.cons_append], hlit,
            hne, hlow, by rwa [lastOf_cons], hright⟩
        | some n =>
          rw [htry] at hm
          simp only at hm
          obtain ⟨lit, hlit, hn, hlen, hlow, hbnd⟩ := tryAlts_spec htry
          have hn1 : 1 ≤ n := by
            have := List.length_pos.mpr (halts lit hlit)
            omega
          have hk : max n 1 = n := by omega
          rw [hk] at hm
          rcases List.mem_cons.mp hm with hhead | htail
          · refine ⟨[], (c :: rest).drop n, lit, ?_, hlit, ?_, ?_, ?_, ?_⟩
            · rw [hhead, List.nil_append, List.take_append_drop]
            · rw [hhead]
              intro hcon
              have := congrArg List.length hcon
              simp [List.length_take] at this
              omega
            · rw [hhead, hn]
              exact hlow
            · rw [lastOf_nil, hhead, head?_of_take_cons _ _ _ hn1]
              exact hb
            · rw [hhead, head?_drop_eq, hn]
              exact hbnd
          · obtain ⟨pre, post, lit', heq, hlit', hne, hlow', hleft, hright⟩ :=
              ih htail
            refine ⟨(c :: rest).take n ++ pre, post, lit', ?_, hlit', hne,
              hlow', ?_, hright⟩
            · rw [List.append_assoc, ← heq, List.take_append_drop]
            · rw [lastOf_append]
              have hlast : lastOf prev ((c :: rest).take n) =
                  (c :: rest).get? (n - 1) := by
                unfold lastOf
                rw [getLast?_take_eq _ n hn1 (by rw [hn]; exact hlen)]
                cases hg : (c :: rest).get? (n - 1) with
                | none =>
                  rw [List.get?_eq_getElem?] at hg
                  have h1 := List.getElem?_eq_none_iff.mp hg
                  have h2 : n ≤ (c :: rest).length := by
                    rw [hn]
                    exact hlen
                  omega
                | some x => rfl
              rwa [hlast]
      · rw [if_neg hb] at hm
        obtain ⟨pre, post, lit, heq, hlit, hne, hlow, hleft, hright⟩ :=
          ih hm
        exact ⟨c :: pre, post, lit, by rw [heq, List.cons_append], hlit, hne,
          hlow, by rwa [lastOf_cons], hright⟩

theorem lowerStr_length (s : Str) : (lowerStr s).length = s.length :=
  List.length_map s lowerChar

theorem head?_append_ne_nil {m post : Str} (hne : m ≠ []) :
    (m ++ post).head? = m.head? := by
  cases m with
  | nil => exact absurd rfl hne
  | cons a as => rfl

theorem occurs_of_decomp {text m post pre lit : Str}
    (heq : text = pre ++ (m ++ post)) (hne : m ≠ [])
    (hlow : lowerStr m = lowerStr lit)
    (hleft : wordBoundary (lastOf none pre) m.head? = true)
    (hright : wordBoundary m.getLast? post.head? = true) :
    occursAtCI text pre.length lit = true ∧
    (text.drop pre.length).take lit.length = m ∧
    occursAtCI text pre.length m = true ∧ pre.length < text.length := by
  have hlen_eq : m.length = lit.length := by
    have := congrArg List.length hlow
    simpa [lowerStr_length] using this
  have hdrop : text.drop pre.length = m ++ post := by
    rw [heq, List.drop_left]
  have htake : (text.drop pre.length).take lit.length = m := by
    rw [hdrop, ← hlen_eq, List.take_left]
  have hhead : (text.drop pre.length).head? = m.head? := by
    rw [hdrop, head?_append_ne_nil hne]
  have hprev : prevAt text pre.length = lastOf none pre := by
    unfold prevAt
    by_cases hp : pre.length = 0
    · rw [if_pos hp, List.length_eq_zero.mp hp]
      rfl
    · rw [if_neg hp, heq, List.get?_eq_getElem?,
        List.getElem?_append_left (by omega : pre.length - 1 < pre.length)]
      unfold lastOf
      rw [Option.or_none, List.getLast?_eq_getElem?]
  have hget : (text.drop pre.length).get? lit.length = post.head? := by
    rw [hdrop, ← hlen_eq, List.get?_eq_getElem?,
      List.getElem?_append_right (Nat.le_refl _), Nat.sub_self,
      List.head?_eq_getElem?]
  have hsuflen : lit.length ≤ (text.drop pre.length).length := by
    rw [hdrop, List.length_append, ← hlen_eq]
    omega
  have hlt : pre.length < text.length := by
    rw [heq, List.length_append, List.length_append]
    have : 0 < m.length := List.length_pos.mpr hne
    omega
  have htakem : (text.drop pre.length).take m.length = m := by
    rw [hlen_eq]
    exact htake
  have hgetm : (text.drop pre.length).get? m.length = post.head? := by
    rw [hlen_eq]
    exact hget
  refine ⟨?_, htake, ?_, hlt⟩
  · simp only [occursAtCI, htake, hprev, hhead, hget, Bool.and_eq_true,
      decide_eq_true_eq]
    exact ⟨⟨⟨hsuflen, hlow⟩, hleft⟩, hright⟩
  · simp only [occursAtCI, htakem, hprev, hhead, hgetm, Bool.and_eq_true,
      decide_eq_true_eq]
    exact ⟨⟨⟨by omega, trivial⟩, hleft⟩, hright⟩

theorem patterns_nonempty : ∀ p ∈ skill_patterns, ∀ l ∈ p, l ≠ [] := by
  decide

theorem occursWordCI_of_at {text m : Str} {i : Nat} (hi : i < text.length)
    (h : occursAtCI text i m = true) : occursWordCI m text = true := by
  unfold occursWordCI
  rw [List.any_eq_true]
  exact ⟨i, List.mem_range.mpr hi, h⟩

theorem extract_sound {text s : Str}
    (hs : s ∈ extract_skills_from_text text) :
    ∃ m i lit, lit ∈ allAlternatives ∧ occursAtCI text i lit = true ∧
      (text.drop i).take lit.length = m ∧ i < text.length ∧
      occursWordCI m text = true ∧ occursAtCI text i m = true ∧
      lowerStr m = lowerStr lit ∧ canonMatch m = s := by
  rw [extract_skills_from_text, List.mem_dedup] at hs
  rw [extractMatches, List.mem_map] at hs
  obtain ⟨m, hm, hcanon⟩ := hs
  rw [List.mem_flatten] at hm
  obtain ⟨l, hl, hml⟩ := hm
  rw [List.mem_map] at hl
  obtain ⟨p, hp, rfl⟩ := hl
  have halts : ∀ l ∈ p, l ≠ [] := patterns_nonempty p hp
  rw [findall] at hml
  obtain ⟨pre, post, lit, heq, hlit, hne, hlow, hleft, hright⟩ :=
    findallAux_sound halts hml
  obtain ⟨hocc_lit, hslice, hocc_m, hlt⟩ :=
    occurs_of_decomp heq hne hlow hleft hright
  refine ⟨m, pre.length, lit, ?_, hocc_lit, hslice, hlt,
    occursWordCI_of_at hlt hocc_m, hocc_m, hlow, hcanon⟩
  rw [allAlternatives, List.mem_flatten]
  exact ⟨p, hp, hlit⟩

/-- C4 (amended): every member of `extractSkills(T)` is the canonicalization
of some string that occurs in `T` case-insensitively as a whole word; every
member other than the canonical names `Node.js` / `Next.js` itself occurs in
`T` case-insensitively as a whole word (the two canonical names may instead
stand for a variant spelling found in `T`). -/
theorem extract_members_occur (text s : Str)
    (h : s ∈ extract_skills_from_text text) :
    (∃ m, occursWordCI m text = true ∧ canonMatch m = s) ∧
    (s ≠ "Node.js".toList → s ≠ "Next.js".toList →
      occursWordCI s text = true) := by
  obtain ⟨m, i, lit, hlit, hocc_lit, hslice, hlt, hocc, -, hlow, hcanon⟩ :=
    extract_sound h
  refine ⟨⟨m, hocc, hcanon⟩, ?_⟩
  intro hn1 hn2
  unfold canonMatch at hcanon
  split at hcanon
  · exact absurd hcanon.symm hn1
  · split at hcanon
    · exact absurd hcanon.symm hn2
    · rw [← hcanon]
      exact hocc

/-- Witness for the amended C4 at a concrete text. -/
theorem extract_members_occur_witness :
    occursWordCI "Python".toList "Python rocks".toList = true :=
  (extract_members_occur "Python rocks".toList "Python".toList
    (by decide)).2 (by decide) (by decide)

/-- Counterexample to C4 as stated: for the text "We use nodejs daily" the
extractor returns "Node.js", which does not occur in the text
case-insensitively as a whole word — only the variant "nodejs" does. -/
theorem node_member_without_occurrence :
    "Node.js".toList ∈
      extract_skills_from_text "We use nodejs daily".toList ∧
    occursWordCI "Node.js".toList "We use nodejs daily".toList = false := by
  decide

/-- C5 (amended): every member of `extractSkills(T)` is, up to case, one of
the catalog's surface spellings; any member that is a Node.js/Next.js
variant spelling is collapsed to the canonical display form; and every
member other than those two canonical names is returned in exactly the
casing found in `T` — it occurs verbatim in `T` as a whole word, which need
not be the catalog's display casing. -/
theorem extract_members_casing (text s : Str)
    (h : s ∈ extract_skills_from_text text) :
    lowerStr s ∈ allAlternatives.map lowerStr ∧
    ((lowerStr s = "node.js".toList ∨ lowerStr s = "nodejs".toList ∨
      lowerStr s = "next.js".toList ∨ lowerStr s = "nextjs".toList) →
      s ∈ canonicalDisplayForms) ∧
    (s ≠ "Node.js".toList → s ≠ "Next.js".toList →
      occursWordExact s text = true) := by
  obtain ⟨m, i, lit, hlit, hocc_lit, hslice, hlt, hocc, hoccm, hlow,
    hcanon⟩ := extract_sound h
  have hml : m.length = lit.length := by
    have := congrArg List.length hlow
    simpa [lowerStr_length] using this
  unfold canonMatch at hcanon
  split at hcanon
  · rw [← hcanon]
    refine ⟨by decide, fun _ => by decide, ?_⟩
    intro hne1 _
    exact absurd rfl hne1
  · split at hcanon
    · rw [← hcanon]
      refine ⟨by decide, fun _ => by decide, ?_⟩
      intro _ hne2
      exact absurd rfl hne2
    · next hnode hnext =>
      rw [← hcanon]
      refine ⟨?_, ?_, ?_⟩
      · rw [List.mem_map]
        exact ⟨lit, hlit, hlow.symm⟩
      · intro hvar
        rw [hlow] at hnode hnext
        rcases hvar with h1 | h1 | h1 | h1 <;> rw [hlow] at h1
        · exact absurd (Or.inl h1) hnode
        · exact absurd (Or.inr h1) hnode
        · exact absurd (Or.inl h1) hnext
        · exact absurd (Or.inr h1) hnext
      · intro _ _
        unfold occursWordExact
        rw [List.any_eq_true]
        refine ⟨i, List.mem_range.mpr hlt, ?_⟩
        unfold occursAtExact
        simp only [Bool.and_eq_true, decide_eq_true_eq]
        refine ⟨?_, hoccm⟩
        rw [hml]
        exact hslice

/-- Witness for the amended C5 at a concrete text: the member "python" is a
case-variant of a catalog spelling and occurs verbatim, as a whole word, in
the text. -/
theorem extract_members_casing_witness :
    lowerStr "python".toList ∈ allAlternatives.map lowerStr ∧
    occursWordExact "python".toList "i know python".toList = true :=
  ⟨(extract_members_casing "i know python".toList "python".toList
      (by decide)).1,
   (extract_members_casing "i know python".toList "python".toList
      (by decide)).2.2 (by decide) (by decide)⟩

/-- Counterexample to C5 as stated: for the text "i know python" the
extractor returns "python" — the casing found in the text, not the
catalog's canonical display form "Python". -/
theorem lowercase_member_not_canonical :
    "python".toList ∈ extract_skills_from_text "i know python".toList ∧
    "python".toList ∉ canonicalDisplayForms := by
  decide

theorem drop_append_le {α : Type} {l₁ l₂ : List α} {n : Nat}
    (h : n ≤ l₁.length) : (l₁ ++ l₂).drop n = l₁.drop n ++ l₂ := by
  induction l₁ generalizing n with
  | nil =>
    have hn : n = 0 := by simpa using h
    simp [hn]
  | cons a as ih =>
    cases n with
    | zero => rfl
    | succ m =>
      simp only [List.cons_append, List.drop_succ_cons]
      exact ih (by simpa using h)

theorem isWordChar_eq_of_lower {x y : Str}
    (h : lowerStr x = lowerStr y) {j : Nat} {a b : Char}
    (ha : x.get? j = some a) (hb : y.get? j = some b) :
    isWordChar a = isWordChar b := by
  have hj := congrArg (fun l => l.get? j) h
  simp only [lowerStr, List.get?_eq_getElem?, List.getElem?_map] at hj
  rw [List.get?_eq_getElem?] at ha hb
  rw [ha, hb] at hj
  simp only [Option.map_some', Option.some.injEq] at hj
  rw [← isWordChar_lowerChar a, ← isWordChar_lowerChar b, hj]

theorem hasNWW_of_adjacent {l : Str} {j : Nat} {a b : Char}
    (ha : l.get? j = some a) (hb : l.get? (j + 1) = some b)
    (hna : isWordChar a = false) (hnb : isWordChar b = true) :
    hasNWW l = true := by
  unfold hasNWW
  rw [List.any_eq_true]
  refine ⟨(a, b), ?_, by simp [hna, hnb]⟩
  rw [List.get?_eq_getElem?] at ha hb
  apply List.getElem?_mem (n := j)
  rw [List.getElem?_zip_eq_some]
  exact ⟨ha, by rw [List.getElem?_tail]; exact hb⟩

theorem getLast?_drop_ne_nil {l : Str} {n : Nat} (h : n < l.length) :
    (l.drop n).getLast? = l.getLast? := by
  apply getLast?_suffix_ne_nil (List.drop_suffix n l)
  intro hcon
  rw [List.drop_eq_nil_iff] at hcon
  omega

theorem findallAux_step_match {alts : List Str} {fuel : Nat}
    {prev : Option Char} {c : Char} {rest : Str} {j : Nat}
    (hb : wordBoundary prev (some c) = true)
    (ht : tryAlts alts (c :: rest) = some j) (hj : 1 ≤ j) :
    findallAux alts (fuel + 1) prev (c :: rest) =
      (c :: rest).take j ::
        findallAux alts fuel ((c :: rest).get? (j - 1))
          ((c :: rest).drop j) := by
  rw [findallAux, if_pos hb, ht]
  have hk : max j 1 = j := by omega
  simp only [hk]

theorem findallAux_step_skip_none {alts : List Str} {fuel : Nat}
    {prev : Option Char} {c : Char} {rest : Str}
    (ht : tryAlts alts (c :: rest) = none) :
    findallAux alts (fuel + 1) prev (c :: rest) =
      findallAux alts fuel (some c) rest := by
  rw [findallAux, ht]
  split <;> rfl

theorem findallAux_step_skip_nb {alts : List Str} {fuel : Nat}
    {prev : Option Char} {c : Char} {rest : Str}
    (hb : ¬ wordBoundary prev (some c) = true) :
    findallAux alts (fuel + 1) prev (c :: rest) =
      findallAux alts fuel (some c) rest := by
  rw [findallAux, if_neg hb]

theorem findallAux_complete {alts : List Str}
    (halts : ∀ l ∈ alts, l ≠ [])
    (hnww : ∀ l ∈ alts, hasNWW l = false)
    (fuel : Nat) (prev : Option Char) (pre suf : Str) {n : Nat}
    (hfuel : pre.length + suf.length ≤ fuel)
    (htry : tryAlts alts suf = some n) (hn1 : 1 ≤ n)
    (hb : wordBoundary (lastOf prev pre) suf.head? = true)
    (hw : optWord suf.head? = true) :
    suf.take n ∈ findallAux alts fuel prev (pre ++ suf) := by
  induction fuel generalizing prev pre suf with
  | zero =>
    obtain ⟨lit, hlit, hn, hlen, -, -⟩ := tryAlts_spec htry
    omega
  | succ fuel ih =>
    cases pre with
    | nil =>
      cases suf with
      | nil =>
        obtain ⟨lit, hlit, hn, hlen, -, -⟩ := tryAlts_spec htry
        have hnil : lit = [] := by
          rw [← List.length_eq_zero]
          simpa using hlen
        exact absurd hnil (halts lit hlit)
      | cons c rest =>
        simp only [lastOf_nil, List.head?_cons] at hb
        simp only [List.nil_append]
        rw [findallAux_step_match hb htry hn1]
        exact List.mem_cons_self _ _
    | cons c pre' =>
      have hfuel' : pre'.length + suf.length ≤ fuel := by
        simp only [List.length_cons] at hfuel
        omega
      rw [List.cons_append]
      by_cases hbc : wordBoundary prev (some c) = true
      · cases htry2 : tryAlts alts (c :: (pre' ++ suf)) with
        | none =>
          rw [findallAux_step_skip_none htry2]
          exact ih (some c) pre' suf hfuel' htry
            (by rwa [lastOf_cons] at hb) hw
        | some j =>
          obtain ⟨lit', hlit', hj, hjlen, hjlow, hjbnd⟩ := tryAlts_spec htry2
          have hj1 : 1 ≤ j := by
            have := List.length_pos.mpr (halts lit' hlit')
            omega
          rw [findallAux_step_match hbc htry2 hj1]
          -- the last character of `pre = c :: pre'` is not a word character,
          -- while the first character of `suf` is one
          obtain ⟨p, hp⟩ : ∃ p, (c :: pre').getLast? = some p := by
            cases hg : (c :: pre').getLast? with
            | none => exact absurd (List.getLast?_eq_none_iff.mp hg) (by simp)
            | some x => exact ⟨x, rfl⟩
          have hlastOf : lastOf prev (c :: pre') = some p := by
            unfold lastOf
            rw [hp]
            rfl
          obtain ⟨q, hq⟩ : ∃ q, suf.head? = some q := by
            cases hsq : suf.head? with
            | none => rw [hsq] at hw; exact absurd hw (by simp [optWord])
            | some x => exact ⟨x, rfl⟩
          have hqw : isWordChar q = true := by
            rw [hq] at hw
            exact hw
          have hpw : isWordChar p = false := by
            rw [hlastOf, hq] at hb
            unfold wordBoundary optWord at hb
            simp only [Option.elim] at hb
            cases hiw : isWordChar p
            · rfl
            · rw [hiw, hqw] at hb
              simp at hb
          -- no alternative can cross the boundary into `suf`
          have hcross : j ≤ pre'.length + 1 := by
            by_contra hgt
            push_neg at hgt
            have hd1 : (c :: (pre' ++ suf)).get? pre'.length = some p := by
              rw [← List.cons_append, List.get?_eq_getElem?,
                List.getElem?_append_left
                  (by simp : pre'.length < (c :: pre').length)]
              rw [List.getLast?_eq_getElem?] at hp
              simpa using hp
            have hd2 : (c :: (pre' ++ suf)).get? (pre'.length + 1) =
                some q := by
              rw [← List.cons_append, List.get?_eq_getElem?,
                List.getElem?_append_right
                  (by simp : (c :: pre').length ≤ pre'.length + 1)]
              simp only [List.length_cons, Nat.sub_self]
              rw [← List.head?_eq_getElem?]
              exact hq
            have hs1 : ((c :: (pre' ++ suf)).take lit'.length).get?
                pre'.length = some p := by
              rw [List.get?_eq_getElem?, List.getElem?_take_of_lt (by omega),
                ← List.get?_eq_getElem?]
              exact hd1
            have hs2 : ((c :: (pre' ++ suf)).take lit'.length).get?
                (pre'.length + 1) = some q := by
              rw [List.get?_eq_getElem?, List.getElem?_take_of_lt (by omega),
                ← List.get?_eq_getElem?]
              exact hd2
            obtain ⟨a, ha⟩ : ∃ a, lit'.get? pre'.length = some a := by
              cases hg : lit'.get? pre'.length with
              | none =>
                rw [List.get?_eq_getElem?] at hg
                have := List.getElem?_eq_none_iff.mp hg
                omega
              | some x => exact ⟨x, rfl⟩
            obtain ⟨b, hbb⟩ : ∃ b, lit'.get? (pre'.length + 1) = some b := by
              cases hg : lit'.get? (pre'.length + 1) with
              | none =>
                rw [List.get?_eq_getElem?] at hg
                have := List.getElem?_eq_none_iff.mp hg
                omega
              | some x => exact ⟨x, rfl⟩
            have haw : isWordChar a = false := by
              rw [← isWordChar_eq_of_lower hjlow hs1 ha]
              exact hpw
            have hbw : isWordChar b = true := by
              rw [← isWordChar_eq_of_lower hjlow hs2 hbb]
              exact hqw
            have hcon := hasNWW_of_adjacent ha hbb haw hbw
            rw [hnww lit' hlit'] at hcon
            exact absurd hcon (by simp)
          apply List.mem_cons_of_mem
          have hdrop : (c :: (pre' ++ suf)).drop j =
              (c :: pre').drop j ++ suf := by
            rw [← List.cons_append]
            exact drop_append_le (by simpa using hcross)
          rw [hdrop]
          apply ih ((c :: (pre' ++ suf)).get? (j - 1)) ((c :: pre').drop j)
            suf
          · simp only [List.length_drop, List.length_cons] at *
            omega
          · exact htry
          · have heqlast : lastOf ((c :: (pre' ++ suf)).get? (j - 1))
                ((c :: pre').drop j) = some p := by
              by_cases hje : j = pre'.length + 1
              · have hdnil : (c :: pre').drop j = [] := by
                  rw [List.drop_eq_nil_iff]
                  simp [hje]
                rw [hdnil, lastOf_nil, ← List.cons_append,
                  List.get?_eq_getElem?, List.getElem?_append_left
                    (show j - 1 < (c :: pre').length by simp; omega)]
                rw [List.getLast?_eq_getElem?] at hp
                simp only [List.length_cons] at hp
                have hje1 : j - 1 = pre'.length + 1 - 1 := by omega
                rw [hje1]
                exact hp
              · have hjlt : j < (c :: pre').length := by
                  simp only [List.length_cons]
                  omega
                unfold lastOf
                rw [getLast?_drop_ne_nil hjlt, hp]
                rfl
            rw [heqlast, hq]
            rw [hlastOf, hq] at hb
            exact hb
          · exact hw
      · rw [findallAux_step_skip_nb hbc]
        exact ih (some c) pre' suf hfuel' htry
          (by rwa [lastOf_cons] at hb) hw

theorem tryAlts_cons_pos {lit : Str} {rest : List Str} {t : Str}
    (h1 : lit.length ≤ t.length)
    (h2 : lowerStr (t.take lit.length) = lowerStr lit)
    (h3 : wordBoundary ((t.take lit.length).getLast?) (t.get? lit.length) =
      true) :
    tryAlts (lit :: rest) t = some lit.length := by
  unfold tryAlts
  rw [if_pos ⟨h1, h2, h3⟩]

theorem tryAlts_cons_neg {lit : Str} {rest : List Str} {t : Str}
    (h : ¬ (lit.length ≤ t.length ∧
      lowerStr (t.take lit.length) = lowerStr lit ∧
      wordBoundary ((t.take lit.length).getLast?) (t.get? lit.length) =
        true)) :
    tryAlts (lit :: rest) t = tryAlts rest t := by
  unfold tryAlts
  rw [if_neg h]
  cases rest with
  | nil => rfl
  | cons l ls => rfl

theorem occursAtCI_parts {T w : Str} {i : Nat}
    (h : occursAtCI T i w = true) :
    w.length ≤ (T.drop i).length ∧
    lowerStr ((T.drop i).take w.length) = lowerStr w ∧
    wordBoundary (prevAt T i) (T.drop i).head? = true ∧
    wordBoundary (((T.drop i).take w.length).getLast?)
      ((T.drop i).get? w.length) = true := by
  unfold occursAtCI at h
  simp only [Bool.and_eq_true, decide_eq_true_eq] at h
  exact ⟨h.1.1.1, h.1.1.2, h.1.2, h.2⟩

theorem occursAtExact_parts {T w : Str} {i : Nat}
    (h : occursAtExact T i w = true) :
    (T.drop i).take w.length = w ∧ occursAtCI T i w = true := by
  unfold occursAtExact at h
  simp only [Bool.and_eq_true, decide_eq_true_eq] at h
  exact h

theorem head?_eq_of_take {suf w : Str} {n : Nat} (ht : suf.take n = w)
    (hne : w ≠ []) : suf.head? = w.head? := by
  cases suf with
  | nil =>
    rw [List.take_nil] at ht
    exact absurd ht.symm hne
  | cons a as =>
    cases n with
    | zero => exact absurd ht.symm hne
    | succ m =>
      rw [List.take_succ_cons] at ht
      rw [← ht]
      rfl

theorem lastOf_take_prevAt (T : Str) (i : Nat) (hi : i ≤ T.length) :
    lastOf none (T.take i) = prevAt T i := by
  by_cases h0 : i = 0
  · subst h0
    rfl
  · unfold prevAt
    rw [if_neg h0]
    unfold lastOf
    rw [Option.or_none, getLast?_take_eq T i (by omega) hi]

theorem canon_mem_extract {p : List Str} {text m : Str}
    (hp : p ∈ skill_patterns) (hm : m ∈ findall p text) :
    canonMatch m ∈ extract_skills_from_text text := by
  rw [extract_skills_from_text, List.mem_dedup, extractMatches, List.mem_map]
  exact ⟨m, List.mem_flatten.mpr
    ⟨findall p text, List.mem_map.mpr ⟨p, hp, rfl⟩, hm⟩, rfl⟩

theorem take_prefix_of_take {l w : Str} {n k : Nat} (h : l.take n = w)
    (hk : k ≤ n) : l.take k = w.take k := by
  rw [← h, List.take_take, Nat.min_eq_left hk]

theorem python_mem_extract {T : Str}
    (hP : occursWordExact "Python".toList T = true) :
    "Python".toList ∈ extract_skills_from_text T := by
  rw [occursWordExact, List.any_eq_true] at hP
  obtain ⟨i, hir, hocc⟩ := hP
  rw [List.mem_range] at hir
  obtain ⟨hsl, hci⟩ := occursAtExact_parts hocc
  obtain ⟨hlen, hlow, hbL, hbR⟩ := occursAtCI_parts hci
  have htry : tryAlts pat1 (T.drop i) = some "Python".toList.length := by
    unfold pat1
    exact tryAlts_cons_pos hlen (by rw [hsl]) hbR
  have hcomp := findallAux_complete (by decide) (by decide)
    T.length none (T.take i) (T.drop i)
    (by simp only [List.length_take, List.length_drop]; omega)
    htry (by decide)
    (by rw [lastOf_take_prevAt T i (Nat.le_of_lt hir)]; exact hbL)
    (by rw [head?_eq_of_take hsl (by decide)]; decide)
  rw [hsl, List.take_append_drop] at hcomp
  have hmem := canon_mem_extract (p := pat1) (by decide) hcomp
  have hcan : canonMatch "Python".toList = "Python".toList := by decide
  rwa [hcan] at hmem

theorem docker_mem_extract {T : Str}
    (hD : occursWordExact "Docker".toList T = true) :
    "Docker".toList ∈ extract_skills_from_text T := by
  rw [occursWordExact, List.any_eq_true] at hD
  obtain ⟨i, hir, hocc⟩ := hD
  rw [List.mem_range] at hir
  obtain ⟨hsl, hci⟩ := occursAtExact_parts hocc
  obtain ⟨hlen, hlow, hbL, hbR⟩ := occursAtCI_parts hci
  have htk3 : (T.drop i).take 3 = "Doc".toList :=
    take_prefix_of_take hsl (by decide)
  have htk5 : (T.drop i).take 5 = "Docke".toList :=
    take_prefix_of_take hsl (by decide)
  have htry : tryAlts pat3 (T.drop i) = some "Docker".toList.length := by
    unfold pat3
    rw [tryAlts_cons_neg (by
      rintro ⟨-, h2, -⟩
      rw [show (T.drop i).take "AWS".toList.length = "Doc".toList from htk3]
        at h2
      exact absurd h2 (by decide))]
    rw [tryAlts_cons_neg (by
      rintro ⟨-, h2, -⟩
      rw [show (T.drop i).take "Azure".toList.length = "Docke".toList from
        htk5] at h2
      exact absurd h2 (by decide))]
    rw [tryAlts_cons_neg (by
      rintro ⟨-, h2, -⟩
      rw [show (T.drop i).take "GCP".toList.length = "Doc".toList from htk3]
        at h2
      exact absurd h2 (by decide))]
    exact tryAlts_cons_pos hlen (by rw [hsl]) hbR
  have hcomp := findallAux_complete (by decide) (by decide)
    T.length none (T.take i) (T.drop i)
    (by simp only [List.length_take, List.length_drop]; omega)
    htry (by decide)
    (by rw [lastOf_take_prevAt T i (Nat.le_of_lt hir)]; exact hbL)
    (by rw [head?_eq_of_take hsl (by decide)]; decide)
  rw [hsl, List.take_append_drop] at hcomp
  have hmem := canon_mem_extract (p := pat3) (by decide) hcomp
  have hcan : canonMatch "Docker".toList = "Docker".toList := by decide
  rwa [hcan] at hmem

/-- C2 (amended): for every text that contains "Python" and "Docker" as
whole words in exactly the catalog's spelling, and in which every whole-word
case-insensitive occurrence of a catalog alternative is one of those exact
"Python" / "Docker" occurrences, extraction returns exactly the set
{"Python", "Docker"}. -/
theorem extract_python_docker (T : Str)
    (hP : occursWordExact "Python".toList T = true)
    (hD : occursWordExact "Docker".toList T = true)
    (honly : ∀ i, i < T.length → ∀ lit ∈ allAlternatives,
      occursAtCI T i lit = true →
      (T.drop i).take lit.length = "Python".toList ∨
      (T.drop i).take lit.length = "Docker".toList) :
    (extract_skills_from_text T).toFinset =
      ({"Python".toList, "Docker".toList} : Finset Str) := by
  apply Finset.ext
  intro x
  rw [List.mem_toFinset, Finset.mem_insert, Finset.mem_singleton]
  constructor
  · intro hx
    obtain ⟨m, i, lit, hlit, hocc, hslice, hlt, -, -, -, hcanon⟩ :=
      extract_sound hx
    rcases honly i hlt lit hlit hocc with hm | hm
    · left
      rw [← hcanon, hslice.symm.trans hm]
      decide
    · right
      rw [← hcanon, hslice.symm.trans hm]
      decide
  · rintro (rfl | rfl)
    · exact python_mem_extract hP
    · exact docker_mem_extract hD

set_option maxRecDepth 8192 in
/-- Witness for the amended C2 at the text "Python and Docker". -/
theorem extract_python_docker_witness :
    (extract_skills_from_text "Python and Docker".toList).toFinset =
      ({"Python".toList, "Docker".toList} : Finset Str) :=
  extract_python_docker "Python and Docker".toList
    (by decide) (by decide) (by decide)

set_option maxRecDepth 8192 in
/-- Counterexample to C2 as stated: the text "Python python Docker"
contains the catalog terms "Python" and "Docker" as whole words and no
other catalog term (every whole-word occurrence of a catalog alternative
lower-cases to "python" or "docker"), yet extraction returns
{"Python", "python", "Docker"} — matches are added in the casing found in
the text, so the result is not exactly {"Python", "Docker"}. -/
theorem python_docker_case_variant_breaks :
    occursWordExact "Python".toList "Python python Docker".toList = true ∧
    occursWordExact "Docker".toList "Python python Docker".toList = true ∧
    (∀ i, i < ("Python python Docker".toList).length →
      ∀ lit ∈ allAlternatives,
      occursAtCI "Python python Docker".toList i lit = true →
      lowerStr ((("Python python Docker".toList).drop i).take lit.length) =
        "python".toList ∨
      lowerStr ((("Python python Docker".toList).drop i).take lit.length) =
        "docker".toList) ∧
    (extract_skills_from_text "Python python Docker".toList).toFinset ≠
      ({"Python".toList, "Docker".toList} : Finset Str) := by
  refine ⟨by decide, by decide, by decide, by decide⟩
